import Mathlib

/-!
Shallow embedding of the binary_raster repository (src/src/bitline.rs and
src/src/binary_raster.rs) together with proofs settling the frozen claims.

Machine integers (Rust usize, 64-bit target) are modelled as Nat with an
explicit reduction modulo 2 ^ W where word overflow matters.  Code paths that
abort in a debug build (failed debug assertions, checked usize subtraction
underflow, out of bounds indexing) are modelled with Option: a None result
stands for the aborting call.
-/

set_option maxRecDepth 10000

/-- Word width in bits: usize::BITS on the 64-bit targets the crate is built
for. -/
def W : Nat := 64

/-- struct BitLine: data is the Vec of usize chunks, bits the logical pixel
count.  Chunk values stay below 2 ^ W by construction. -/
structure BitLine where
  data : List Nat
  bits : Nat
deriving DecidableEq, Repr

/-- Checked usize subtraction: Rust debug builds abort on underflow. -/
def checkedSub (a b : Nat) : Option Nat :=
  if b ≤ a then some (a - b) else none

namespace BitLine

/-- BitLine::chunked: continuous bit index to (chunk index, bit in chunk). -/
def chunked (i : Nat) : Nat × Nat := (i / W, i % W)

/-- BitLine::chunks_to_fit. -/
def chunks_to_fit (bits : Nat) : Nat :=
  bits / W + if bits % W = 0 then 0 else 1

/-- BitLine::new: zero filled row of the given logical length. -/
def new (bits : Nat) : BitLine :=
  ⟨List.replicate (chunks_to_fit bits) 0, bits⟩

/-- Structural worker for chunksOf: fuel bounds the number of groups still
to be produced; every call passes fuel at least the list length and each
step consumes at least one element, so the zero fuel clause is unreachable.
The fuel only makes the recursion structural (and so kernel executable). -/
def chunksOfFuel (w : Nat) : Nat → List Nat → List (List Nat)
  | _, [] => []
  | 0, _ :: _ => []
  | fuel + 1, b :: rest => ((b :: rest).take w) :: chunksOfFuel w fuel ((b :: rest).drop w)

/-- Splits a list into consecutive groups of w elements (the last group may
be shorter).  Renders the chunk_i advance of the from_bits loop and the
step_by(width) row slicing of from_raster. -/
def chunksOf (w : Nat) (l : List Nat) : List (List Nat) :=
  if w = 0 then [] else chunksOfFuel w l.length l

/-- Packs one group of at most W bytes into a chunk value: bit i of the
result is set iff byte i of the group is nonzero.  Renders the inner
statement data[chunk_i] |= 1 << bit_i of the from_bits loop, bit by bit. -/
def packChunk : List Nat → Nat
  | [] => 0
  | b :: rest => (if b ≠ 0 then 1 else 0) + 2 * packChunk rest

/-- BitLine::from_bits. -/
def from_bits (bs : List Nat) : BitLine :=
  ⟨(chunksOf W bs).map packChunk, bs.length⟩

/-- BitLine::to_bits: one output byte per bit position, chunk by chunk,
early returning once bits bytes have been produced. -/
def to_bits (b : BitLine) : List Nat :=
  ((b.data.flatMap fun seg => (List.range W).map fun bit_i => (seg >>> bit_i) &&& 1).take b.bits)

/-- BitLine::chunk_width. -/
def chunk_width (b : BitLine) : Nat := b.data.length

/-- The descending loop of BitLine::shifted_right, rendered as an ascending
carry chain: each chunk is shifted left inside its word and receives the
spill (the high amount bits) of the previous chunk; the final spill is
appended as a new chunk only when it is nonzero, exactly as the source
pushes only a nonzero spill. -/
def shiftChunks (amount : Nat) : List Nat → Nat → List Nat
  | [], spill => if spill = 0 then [] else [spill]
  | c :: rest, spill =>
      (((c <<< amount) % 2 ^ W) ||| spill) :: shiftChunks amount rest (c >>> (W - amount))

/-- The spill left over after the whole chunk list has been shifted; tracks
which value shiftChunks would or would not append at the end. -/
def finalSpill (amount : Nat) : List Nat → Nat → Nat
  | [], spill => spill
  | c :: rest, _ => finalSpill amount rest (c >>> (W - amount))

/-- BitLine::shifted_right; amount is assumed below W (debug assertion in
the source), every caller passes x mod W. -/
def shifted_right (b : BitLine) (amount : Nat) : BitLine :=
  if amount = 0 then b
  else ⟨shiftChunks amount b.data 0, b.bits + amount⟩

/-- BitLine::collision_check. -/
def collision_check (self other : BitLine) (segment_offset : Nat) : Bool :=
  if self.data.length ≤ segment_offset then false
  else
    (List.range (min (other.data.length + segment_offset) self.data.length - segment_offset)).any
      fun i => (self.data.getD (i + segment_offset) 0) &&& (other.data.getD i 0) != 0

/-- Pointwise bitwise or of the source chunks into a suffix of the self
chunks; the remaining self chunks are kept. -/
def orInto : List Nat → List Nat → List Nat
  | xs, [] => xs
  | [], _ :: _ => []
  | x :: xs, s :: ss => (x ||| s) :: orInto xs ss

/-- BitLine::add_from: or-merges every source chunk into self at the given
chunk offset.  The source debug-asserts that the whole source span fits and
indexes self unconditionally, so an oversized span aborts: None. -/
def add_from (self source : BitLine) (segment_offset : Nat) : Option BitLine :=
  if source.data.length + segment_offset ≤ self.data.length then
    some ⟨self.data.take segment_offset ++ orInto (self.data.drop segment_offset) source.data,
          self.bits⟩
  else none

end BitLine

/-- The inline chunk offset computation shared by every positioned raster
operation: (BitLine::chunks_to_fit(pos.0) - 1).max(0).  The subtraction is
usize subtraction, so chunks_to_fit 0 = 0 underflows: None. -/
def segmentOffset (x : Nat) : Option Nat :=
  (checkedSub (BitLine.chunks_to_fit x) 1).map fun v => Nat.max v 0

/-- struct BinaryRaster: rows of BitLine plus the (unused) x_offset field. -/
structure BinaryRaster where
  data : List BitLine
  x_offset : Nat
deriving DecidableEq, Repr

namespace BinaryRaster

/-- BinaryRaster::from_raster.  step_by(0) aborts in the source, and a
trailing partial row makes the slice pixels[i..i+width] go out of bounds;
both are modelled as None. -/
def from_raster (pixels : List Nat) (width : Nat) : Option BinaryRaster :=
  if width = 0 then none
  else if pixels.length % width ≠ 0 then none
  else some ⟨(BitLine.chunksOf width pixels).map BitLine.from_bits, 0⟩

/-- BinaryRaster::max_chunkwidth: iter max with unwrap_or(0). -/
def max_chunkwidth (r : BinaryRaster) : Nat :=
  (r.data.map BitLine.chunk_width).foldr Nat.max 0

/-- BinaryRaster::shifted_right. -/
def shifted_right (r : BinaryRaster) (amount : Nat) : BinaryRaster :=
  if amount = 0 then r
  else ⟨r.data.map fun l => l.shifted_right amount, r.x_offset + amount⟩

/-- The loop of BinaryRaster::collision_check: row line_i of source against
row line_i + line_offset of self; an out of range self row is an indexing
abort in the source: None. -/
def collision_rows (self : List BitLine) :
    List BitLine → Nat → Nat → Option Bool
  | [], _, _ => some false
  | s :: ss, segment_offset, line_offset =>
      match self[line_offset]? with
      | none => none
      | some row =>
          if row.collision_check s segment_offset then some true
          else collision_rows self ss segment_offset (line_offset + 1)

/-- BinaryRaster::collision_check (internal helper). -/
def collision_check (self source : BinaryRaster) (segment_offset line_offset : Nat) :
    Option Bool :=
  collision_rows self.data source.data segment_offset line_offset

/-- The merge loop shared by add_from and add_from_checked: row line_i of
source is or-merged into row y + line_i of self. -/
def merge_rows : List BitLine → List BitLine → Nat → Nat → Option (List BitLine)
  | rows, [], _, _ => some rows
  | rows, s :: ss, segment_offset, y =>
      match rows[y]? with
      | none => none
      | some row =>
          match row.add_from s segment_offset with
          | none => none
          | some row2 => merge_rows (rows.set y row2) ss segment_offset (y + 1)

/-- BinaryRaster::add_from_checked.  Returns the post state paired with the
success flag (true = Ok, merged; false = Err, self untouched); None models
an aborting call (chunk offset underflow at x = 0, failed debug assertion,
out of bounds access). -/
def add_from_checked (self source : BinaryRaster) (pos : Nat × Nat) :
    Option (BinaryRaster × Bool) :=
  match segmentOffset pos.1 with
  | none => none
  | some so =>
    if so + source.max_chunkwidth ≤ self.max_chunkwidth then
      if pos.2 + source.data.length ≤ self.data.length then
        let src := source.shifted_right (pos.1 % W)
        match collision_rows self.data src.data so pos.2 with
        | none => none
        | some true => some (self, false)
        | some false =>
            match merge_rows self.data src.data so pos.2 with
            | none => none
            | some rows => some (⟨rows, self.x_offset⟩, true)
      else none
    else none

/-- BinaryRaster::add_from (unconditional merge). -/
def add_from (self source : BinaryRaster) (pos : Nat × Nat) : Option BinaryRaster :=
  match segmentOffset pos.1 with
  | none => none
  | some so =>
    if so + source.max_chunkwidth ≤ self.max_chunkwidth then
      if pos.2 + source.data.length ≤ self.data.length then
        let src := source.shifted_right (pos.1 % W)
        match merge_rows self.data src.data so pos.2 with
        | none => none
        | some rows => some ⟨rows, self.x_offset⟩
      else none
    else none

/-- BinaryRaster::collision_check_at. -/
def collision_check_at (self other : BinaryRaster) (pos : Nat × Nat) : Option Bool :=
  if self.data.length ≤ pos.2 then some false
  else
    match segmentOffset pos.1 with
    | none => none
    | some so =>
      let o := other.shifted_right (pos.1 % W)
      let other_height := min (o.data.length + pos.2) self.data.length - pos.2
      some ((List.range other_height).any fun i =>
        (self.data.getD (i + pos.2) ⟨[], 0⟩).collision_check (o.data.getD i ⟨[], 0⟩) so)

/-- Modelled from the spec: max_chunkwidth_after_shift is absent from src
(only the spec describes it).  The spec pins its value: the chunk width each
row would have after shifted_right(amount), maximised over rows, used purely
for bounds checking. -/
def max_chunkwidth_after_shift (r : BinaryRaster) (amount : Nat) : Nat :=
  (r.data.map fun l => (l.shifted_right amount).chunk_width).foldr Nat.max 0

/-- Modelled from the spec: can_fit is absent from src.  Decomposes pos.x by
the spec rule chunk_offset = max(chunks_to_fit(x), 1) - 1 and
bit_shift = x mod W, then checks (a) horizontal chunk capacity and (b) the
strict vertical inequality pos.y + height(other) < height(self). -/
def can_fit (self other : BinaryRaster) (pos : Nat × Nat) : Bool :=
  let chunk_offset := Nat.max (BitLine.chunks_to_fit pos.1) 1 - 1
  let bit_shift := pos.1 % W
  decide (chunk_offset + other.max_chunkwidth_after_shift bit_shift ≤ self.max_chunkwidth) &&
  decide (pos.2 + other.data.length < self.data.length)

end BinaryRaster

/-- The BitLine chunk count invariant stated by the spec:
len(chunks) = ceil(bit_length / W), with ceil expressed through the
chunks_to_fit of the source. -/
def BitLine.Inv (b : BitLine) : Prop :=
  b.data.length = BitLine.chunks_to_fit b.bits

instance (b : BitLine) : Decidable (BitLine.Inv b) :=
  inferInstanceAs (Decidable (b.data.length = BitLine.chunks_to_fit b.bits))

/-- Postcondition of a completing add_from_checked call: a blocked call
returns the receiver bit for bit unchanged; a successful call or-merges
every row of the shifted source at the decomposed address, via
BitLine::add_from, and keeps every other row untouched. -/
def AddPost (self source : BinaryRaster) (pos : Nat × Nat) (out : BinaryRaster × Bool) : Prop :=
  (out.2 = false → out.1 = self) ∧
  (out.2 = true →
    out.1.x_offset = self.x_offset ∧
    out.1.data.length = self.data.length ∧
    (∀ j, j < pos.2 ∨ pos.2 + source.data.length ≤ j → out.1.data[j]? = self.data[j]?) ∧
    (∀ i, i < source.data.length →
      (self.data.getD (pos.2 + i) ⟨[], 0⟩).add_from
          ((source.shifted_right (pos.1 % W)).data.getD i ⟨[], 0⟩)
          (BitLine.chunks_to_fit pos.1 - 1)
        = some (out.1.data.getD (pos.2 + i) ⟨[], 0⟩)))

/-- Fixture: a 1 by 1 raster holding a zero pixel. -/
def rasterZero1 : BinaryRaster := ⟨[BitLine.from_bits [0]], 0⟩

/-- Fixture: a 1 by 1 raster holding a set pixel. -/
def rasterOne1 : BinaryRaster := ⟨[BitLine.from_bits [1]], 0⟩

/-- Fixture: a 1 by 2 raster holding two zero pixels. -/
def rasterZero2 : BinaryRaster := ⟨[BitLine.from_bits [0, 0]], 0⟩

/-! ### Generic bit level toolkit -/

theorem W_pos : 0 < W := by decide

theorem and_one_shift (x t : Nat) : (x >>> t) &&& 1 = if x.testBit t then 1 else 0 := by
  rw [Nat.and_one_is_mod, Nat.testBit_to_div_mod, Nat.shiftRight_eq_div_pow]
  rcases Nat.mod_two_eq_zero_or_one (x / 2 ^ t) with h | h <;> simp [h]

namespace BitLine

theorem packChunk_lt (g : List Nat) : packChunk g < 2 ^ g.length := by
  induction g with
  | nil => simp [packChunk]
  | cons b rest ih =>
    simp only [packChunk, List.length_cons, Nat.pow_succ]
    rcases Decidable.em (b = 0) with h | h <;> simp [h] <;> omega

theorem packChunk_testBit (g : List Nat) (j : Nat) :
    (packChunk g).testBit j = (decide (j < g.length) && decide (g.getD j 0 ≠ 0)) := by
  induction g generalizing j with
  | nil => simp [packChunk]
  | cons b rest ih =>
    cases j with
    | zero =>
      rcases Decidable.em (b = 0) with h | h <;>
        simp [packChunk, h, Nat.testBit_zero] <;> omega
    | succ j =>
      have hdiv : ((if b ≠ 0 then 1 else 0) + 2 * packChunk rest) / 2 = packChunk rest := by
        rcases Decidable.em (b = 0) with h | h <;> simp [h] <;> omega
      rw [packChunk, Nat.testBit_add_one, hdiv, ih]
      simp

theorem chunksOfFuel_nil (w fuel : Nat) : chunksOfFuel w fuel [] = [] := by
  cases fuel <;> rfl

theorem chunksOf_nil (w : Nat) : chunksOf w [] = [] := by
  rw [chunksOf]
  split <;> simp [chunksOfFuel_nil]

theorem chunksOfFuel_length_W :
    ∀ (fuel : Nat) (l : List Nat), l.length ≤ fuel →
      (chunksOfFuel W fuel l).length = chunks_to_fit l.length := by
  intro fuel
  induction fuel with
  | zero =>
    intro l h
    have hl : l = [] := List.eq_nil_of_length_eq_zero (by omega)
    subst hl
    simp [chunksOfFuel_nil, chunks_to_fit]
  | succ f ih =>
    intro l h
    cases l with
    | nil => simp [chunksOfFuel_nil, chunks_to_fit]
    | cons b rest =>
      simp only [chunksOfFuel, List.length_cons]
      rw [ih _ (by simp only [List.length_drop, List.length_cons, W] at *; omega)]
      simp only [List.length_drop, List.length_cons, chunks_to_fit, W] at *
      split_ifs <;> omega

theorem chunksOf_length_W (l : List Nat) :
    (chunksOf W l).length = chunks_to_fit l.length := by
  rw [chunksOf, if_neg (by decide)]
  exact chunksOfFuel_length_W l.length l (Nat.le_refl _)

theorem chunksOfFuel_getD_W :
    ∀ (fuel : Nat) (l : List Nat) (j : Nat), l.length ≤ fuel →
      (chunksOfFuel W fuel l).getD j [] = (l.drop (j * W)).take W := by
  intro fuel
  induction fuel with
  | zero =>
    intro l j h
    have hl : l = [] := List.eq_nil_of_length_eq_zero (by omega)
    subst hl
    simp [chunksOfFuel_nil]
  | succ f ih =>
    intro l j h
    cases l with
    | nil => simp [chunksOfFuel_nil]
    | cons b rest =>
      cases j with
      | zero => simp [chunksOfFuel]
      | succ j =>
        simp only [chunksOfFuel, List.getD_cons_succ]
        rw [ih _ j (by simp only [List.length_drop, List.length_cons, W] at *; omega),
            List.drop_drop]
        congr 2
        ring

theorem chunksOf_getD_W (l : List Nat) (j : Nat) :
    (chunksOf W l).getD j [] = (l.drop (j * W)).take W := by
  rw [chunksOf, if_neg (by decide)]
  exact chunksOfFuel_getD_W l.length l j (Nat.le_refl _)

theorem from_bits_bits (bs : List Nat) : (from_bits bs).bits = bs.length := rfl

theorem from_bits_data_length (bs : List Nat) :
    (from_bits bs).data.length = chunks_to_fit bs.length := by
  show ((chunksOf W bs).map packChunk).length = _
  rw [List.length_map, chunksOf_length_W]

theorem from_bits_getD (bs : List Nat) (j : Nat) :
    (from_bits bs).data.getD j 0 = packChunk ((bs.drop (j * W)).take W) := by
  show ((chunksOf W bs).map packChunk).getD j 0 = _
  rcases Nat.lt_or_ge j (chunksOf W bs).length with h | h
  · rw [List.getD_eq_getElem?_getD, List.getElem?_map, List.getElem?_eq_getElem h]
    have := chunksOf_getD_W bs j
    rw [List.getD_eq_getElem?_getD, List.getElem?_eq_getElem h] at this
    simp only [Option.map_some', Option.getD_some] at *
    rw [this]
  · have h2 : bs.length ≤ j * W := by
      rw [chunksOf_length_W] at h
      simp only [chunks_to_fit, W] at *
      split_ifs at h <;> omega
    rw [List.getD_eq_getElem?_getD, List.getElem?_map,
        List.getElem?_eq_none (by simpa using h)]
    simp [List.drop_eq_nil_of_le h2, packChunk]

theorem from_bits_chunk_lt (bs : List Nat) (j : Nat) :
    (from_bits bs).data.getD j 0 < 2 ^ W := by
  rw [from_bits_getD]
  calc packChunk ((bs.drop (j * W)).take W)
      < 2 ^ ((bs.drop (j * W)).take W).length := packChunk_lt _
    _ ≤ 2 ^ W := Nat.pow_le_pow_right (by decide) (by simp [List.length_take])

theorem from_bits_testBit (bs : List Nat) (j t : Nat) (ht : t < W) :
    ((from_bits bs).data.getD j 0).testBit t
      = (decide (j * W + t < bs.length) && decide (bs.getD (j * W + t) 0 ≠ 0)) := by
  rw [from_bits_getD, packChunk_testBit]
  have h1 : ((bs.drop (j * W)).take W).getD t 0 = bs.getD (j * W + t) 0 := by
    rw [List.getD_eq_getElem?_getD, List.getD_eq_getElem?_getD,
        List.getElem?_take_of_lt ht, List.getElem?_drop]
  have h2 : (t < ((bs.drop (j * W)).take W).length) ↔ (j * W + t < bs.length) := by
    simp only [List.length_take, List.length_drop, W] at *
    omega
  rw [h1, decide_eq_decide.mpr h2]

theorem flat_length (data : List Nat) :
    (data.flatMap fun seg => (List.range W).map fun bit_i => (seg >>> bit_i) &&& 1).length
      = data.length * W := by
  induction data with
  | nil => simp
  | cons c rest ih =>
    rw [List.flatMap_cons, List.length_append, ih]
    simp [Nat.succ_mul, Nat.add_comm]

theorem flat_getElem (data : List Nat) (i : Nat) (h : i < data.length * W) :
    (data.flatMap fun seg => (List.range W).map fun bit_i => (seg >>> bit_i) &&& 1)[i]?
      = some ((data.getD (i / W) 0 >>> (i % W)) &&& 1) := by
  induction data generalizing i with
  | nil => simp at h
  | cons c rest ih =>
    rw [List.flatMap_cons]
    rcases Nat.lt_or_ge i W with hi | hi
    · rw [List.getElem?_append_left (by simpa using hi), List.getElem?_map,
          List.getElem?_range hi]
      simp [Nat.div_eq_of_lt hi, Nat.mod_eq_of_lt hi]
    · obtain ⟨j, rfl⟩ : ∃ j, i = W + j := ⟨i - W, by omega⟩
      rw [List.getElem?_append_right (by simpa using Nat.le_add_right W j)]
      have hj : j < rest.length * W := by
        simp only [List.length_cons, W] at *
        omega
      have hstep : ((List.range W).map fun bit_i => (c >>> bit_i) &&& 1).length = W := by
        simp
      rw [hstep]
      have hWj : W + j - W = j := by omega
      rw [hWj, ih j hj]
      have hdiv : (W + j) / W = j / W + 1 := by
        rw [Nat.add_comm W j, Nat.add_div_right _ W_pos]
      have hmod : (W + j) % W = j % W := Nat.add_mod_left W j
      rw [hdiv, hmod, List.getD_cons_succ]

theorem to_bits_length (b : BitLine) :
    b.to_bits.length = min b.bits (b.data.length * W) := by
  rw [BitLine.to_bits, List.length_take, flat_length, Nat.min_comm]

theorem to_bits_getElem (b : BitLine) (i : Nat) :
    b.to_bits[i]? =
      if i < min b.bits (b.data.length * W)
      then some ((b.data.getD (i / W) 0 >>> (i % W)) &&& 1)
      else none := by
  rw [BitLine.to_bits]
  rcases Nat.lt_or_ge i (min b.bits (b.data.length * W)) with h | h
  · rw [List.getElem?_take_of_lt (by omega), flat_getElem b.data i (by omega), if_pos h]
  · rw [if_neg (by omega)]
    apply List.getElem?_eq_none
    rw [List.length_take, flat_length, Nat.min_comm]
    omega

theorem from_bits_capacity (p : List Nat) :
    p.length ≤ (from_bits p).data.length * W := by
  rw [from_bits_data_length]
  simp only [chunks_to_fit, W]
  split_ifs <;> omega

end BitLine

/-- C2: to_bits is an exact inverse of from_bits: for every sequence p of
0/1 byte values, BitLine::to_bits applied to BitLine::from_bits(p) returns
exactly p, same length and same elements. -/
theorem c2_roundtrip (p : List Nat) (h : ∀ b ∈ p, b = 0 ∨ b = 1) :
    (BitLine.from_bits p).to_bits = p := by
  have hcap := BitLine.from_bits_capacity p
  apply List.ext_getElem?
  intro n
  rw [BitLine.to_bits_getElem, BitLine.from_bits_bits,
      Nat.min_eq_left hcap]
  rcases Nat.lt_or_ge n p.length with hn | hn
  · rw [if_pos hn, and_one_shift]
    have ht : n % W < W := Nat.mod_lt _ W_pos
    have hjt : (n / W) * W + n % W = n := by
      rw [Nat.mul_comm]
      exact Nat.div_add_mod n W
    rw [BitLine.from_bits_testBit p (n / W) (n % W) ht, hjt]
    have hmem : p.getD n 0 ∈ p := by
      rw [List.getD_eq_getElem p 0 hn]
      exact List.getElem_mem hn
    rw [List.getElem?_eq_getElem hn, ← List.getD_eq_getElem p 0 hn]
    rcases h _ hmem with h0 | h1
    · rw [List.getD_eq_getElem p 0 hn] at h0
      simp [h0, hn]
    · rw [List.getD_eq_getElem p 0 hn] at h1
      simp [h1, hn]
  · rw [if_neg (by omega), List.getElem?_eq_none hn]

/-- Witness for C2 at a concrete 0/1 sequence. -/
theorem c2_roundtrip_witness :
    (BitLine.from_bits [0, 1, 1, 0, 1]).to_bits = [0, 1, 1, 0, 1] :=
  c2_roundtrip [0, 1, 1, 0, 1] (by decide)

/-- C10: from_bits treats every nonzero byte as a set pixel: inputs equal
elementwise under the map (0 stays 0, nonzero becomes 1) produce equal
BitLines, and to_bits only ever returns 0 and 1 values. -/
theorem c10_nonzero_quotient (p q : List Nat)
    (h : p.map (fun b => if b = 0 then (0 : Nat) else 1)
       = q.map (fun b => if b = 0 then (0 : Nat) else 1)) :
    BitLine.from_bits p = BitLine.from_bits q ∧
      ∀ (bl : BitLine) (v : Nat), v ∈ bl.to_bits → v = 0 ∨ v = 1 := by
  have hlen : p.length = q.length := by
    have := congrArg List.length h
    simpa using this
  constructor
  · have key : ∀ i, i < p.length → (p.getD i 0 = 0 ↔ q.getD i 0 = 0) := by
      intro i hi
      have hi' : i < q.length := hlen ▸ hi
      have h1 := congrArg (fun l => l[i]?) h
      simp only [List.getElem?_map, List.getElem?_eq_getElem hi,
        List.getElem?_eq_getElem hi', Option.map_some'] at h1
      have h2 : (if p[i] = 0 then (0 : Nat) else 1) = (if q[i] = 0 then 0 else 1) :=
        Option.some.inj h1
      rw [List.getD_eq_getElem p 0 hi, List.getD_eq_getElem q 0 hi']
      split_ifs at h2 <;> simp_all
    have hdlen : (BitLine.from_bits p).data.length = (BitLine.from_bits q).data.length := by
      rw [BitLine.from_bits_data_length, BitLine.from_bits_data_length, hlen]
    have hchunk : ∀ j, (BitLine.from_bits p).data.getD j 0
        = (BitLine.from_bits q).data.getD j 0 := by
      intro j
      apply Nat.eq_of_testBit_eq
      intro t
      rcases Nat.lt_or_ge t W with ht | ht
      · rw [BitLine.from_bits_testBit p j t ht, BitLine.from_bits_testBit q j t ht, hlen]
        rcases Nat.lt_or_ge (j * W + t) q.length with hi | hi
        · have hk := key (j * W + t) (hlen ▸ hi)
          have : (p.getD (j * W + t) 0 ≠ 0) ↔ (q.getD (j * W + t) 0 ≠ 0) := not_congr hk
          rw [decide_eq_decide.mpr this]
        · rw [decide_eq_false (by omega)]
          simp
      · have hp := BitLine.from_bits_chunk_lt p j
        have hq := BitLine.from_bits_chunk_lt q j
        have hpow : (2 : Nat) ^ W ≤ 2 ^ t := Nat.pow_le_pow_right (by decide) ht
        rw [Nat.testBit_lt_two_pow (by omega), Nat.testBit_lt_two_pow (by omega)]
    have hdata : (BitLine.from_bits p).data = (BitLine.from_bits q).data := by
      apply List.ext_getElem?
      intro j
      rcases Nat.lt_or_ge j (BitLine.from_bits p).data.length with hj | hj
      · have hj' : j < (BitLine.from_bits q).data.length := hdlen ▸ hj
        rw [List.getElem?_eq_getElem hj, List.getElem?_eq_getElem hj']
        have := hchunk j
        rw [List.getD_eq_getElem _ 0 hj, List.getD_eq_getElem _ 0 hj'] at this
        rw [this]
      · rw [List.getElem?_eq_none hj, List.getElem?_eq_none (hdlen ▸ hj)]
    cases hp : BitLine.from_bits p with
    | mk d1 b1 =>
      cases hq : BitLine.from_bits q with
      | mk d2 b2 =>
        have e1 : d1 = d2 := by rw [hp, hq] at hdata; exact hdata
        have e2 : b1 = b2 := by
          have := BitLine.from_bits_bits p
          have := BitLine.from_bits_bits q
          rw [hp] at *
          rw [hq] at *
          simp_all [hlen]
        rw [e1, e2]
  · intro bl v hv
    obtain ⟨n, hn, rfl⟩ := List.getElem_of_mem hv
    have hsome : bl.to_bits[n]? = some bl.to_bits[n] := List.getElem?_eq_getElem hn
    rw [BitLine.to_bits_getElem] at hsome
    split at hsome
    · have := Option.some.inj hsome
      rw [← this, Nat.and_one_is_mod]
      omega
    · exact absurd hsome (by simp)

/-- Witness for C10: two byte sequences that agree under the nonzero map
pack to the same BitLine. -/
theorem c10_nonzero_quotient_witness :
    BitLine.from_bits [0, 5, 0, 200] = BitLine.from_bits [0, 1, 0, 1] :=
  (c10_nonzero_quotient [0, 5, 0, 200] [0, 1, 0, 1] (by decide)).1

namespace BitLine

theorem shiftChunks_getD (k : Nat) (data : List Nat) (s j : Nat) :
    (shiftChunks k data s).getD j 0
      = ((data.getD j 0 <<< k) % 2 ^ W) |||
        (if j = 0 then s else data.getD (j - 1) 0 >>> (W - k)) := by
  induction data generalizing s j with
  | nil =>
    cases j with
    | zero =>
      rw [shiftChunks]
      rcases Decidable.em (s = 0) with hs | hs
      · simp [hs]
      · simp [hs]
    | succ j =>
      rw [shiftChunks]
      rcases Decidable.em (s = 0) with hs | hs
      · simp [hs]
      · simp [hs]
  | cons c rest ih =>
    cases j with
    | zero => simp [shiftChunks]
    | succ j =>
      rw [shiftChunks]
      simp only [List.getD_cons_succ]
      rw [ih (c >>> (W - k)) j]
      cases j with
      | zero => simp
      | succ j => simp

theorem shiftChunks_length (k : Nat) (data : List Nat) (s : Nat) :
    (shiftChunks k data s).length
      = data.length + (if finalSpill k data s = 0 then 0 else 1) := by
  induction data generalizing s with
  | nil =>
    rw [shiftChunks, finalSpill]
    split_ifs <;> simp
  | cons c rest ih =>
    rw [shiftChunks, finalSpill]
    simp only [List.length_cons, ih]
    omega

theorem getD_lt_two_pow (data : List Nat) (hWF : ∀ c ∈ data, c < 2 ^ W) (j : Nat) :
    data.getD j 0 < 2 ^ W := by
  rcases Nat.lt_or_ge j data.length with hj | hj
  · rw [List.getD_eq_getElem _ 0 hj]
    exact hWF _ (List.getElem_mem hj)
  · rw [List.getD_eq_getElem?_getD, List.getElem?_eq_none hj]
    simpa using Nat.pow_pos (by decide : 0 < 2) W

theorem shiftChunks_testBit (data : List Nat) (k : Nat) (hk : k < W)
    (hWF : ∀ c ∈ data, c < 2 ^ W) (j t : Nat) (ht : t < W) :
    ((shiftChunks k data 0).getD j 0).testBit t
      = if t < k then
          (if j = 0 then false else (data.getD (j - 1) 0).testBit (W - k + t))
        else (data.getD j 0).testBit (t - k) := by
  rw [shiftChunks_getD, Nat.testBit_or, Nat.testBit_mod_two_pow, Nat.testBit_shiftLeft]
  rcases Nat.lt_or_ge t k with htk | htk
  · rw [if_pos htk]
    have h1 : (decide (t ≥ k)) = false := by
      simp only [decide_eq_false_iff_not]
      omega
    rw [h1]
    simp only [Bool.false_and, Bool.and_false, Bool.false_or]
    rcases Decidable.em (j = 0) with hj0 | hj0
    · simp [hj0]
    · simp only [if_neg hj0, Nat.testBit_shiftRight]
  · rw [if_neg (by omega : ¬ t < k)]
    have h3 : (if j = 0 then (0 : Nat) else data.getD (j - 1) 0 >>> (W - k)).testBit t
        = false := by
      rcases Decidable.em (j = 0) with hj0 | hj0
      · simp [hj0]
      · rw [if_neg hj0, Nat.testBit_shiftRight]
        apply Nat.testBit_lt_two_pow
        have hc := getD_lt_two_pow data hWF (j - 1)
        have hp : 2 ^ W ≤ 2 ^ (W - k + t) := Nat.pow_le_pow_right (by decide) (by omega)
        omega
    rw [h3, Bool.or_false]
    have h1 : decide (t ≥ k) = true := by simp [htk]
    have h2 : decide (t < W) = true := by simp [ht]
    rw [h1, h2]
    simp

end BitLine

namespace BitLine

theorem shifted_pixel (b : BitLine) (k : Nat) (hk : k < W)
    (hWF : ∀ c ∈ b.data, c < 2 ^ W) (i : Nat) :
    ((shiftChunks k b.data 0).getD (i / W) 0).testBit (i % W)
      = if i < k then false
        else (b.data.getD ((i - k) / W) 0).testBit ((i - k) % W) := by
  have ht : i % W < W := Nat.mod_lt _ W_pos
  rw [shiftChunks_testBit b.data k hk hWF (i / W) (i % W) ht]
  have hk64 : k < 64 := hk
  have hdm64 : 64 * (i / 64) + i % 64 = i := Nat.div_add_mod i 64
  rcases Nat.lt_or_ge (i % W) k with htk | htk
  · have htk64 : i % 64 < k := htk
    rw [if_pos htk]
    rcases Decidable.em (i / W = 0) with hj0 | hj0
    · have hj64 : i / 64 = 0 := hj0
      rw [if_pos hj0, if_pos (show i < k by omega)]
    · have hj64 : ¬ i / 64 = 0 := hj0
      rw [if_neg hj0, if_neg (show ¬ i < k by omega)]
      have e1 : (i - k) / W = i / W - 1 := show (i - k) / 64 = i / 64 - 1 by omega
      have e2 : (i - k) % W = W - k + i % W := show (i - k) % 64 = 64 - k + i % 64 by omega
      rw [e1, e2]
  · have htk64 : i % 64 ≥ k := htk
    rw [if_neg (show ¬ i % W < k by omega), if_neg (show ¬ i < k by omega)]
    have e1 : (i - k) / W = i / W := show (i - k) / 64 = i / 64 by omega
    have e2 : (i - k) % W = i % W - k := show (i - k) % 64 = i % 64 - k by omega
    rw [e1, e2]

end BitLine

/-- C3 amended: shifting right by k (k below the word width) and unpacking
equals prepending k zero pixels, provided the grown bit length still fits
the existing chunk capacity; the bit length always grows by exactly k, and
a zero shift is an identity copy. -/
theorem c3_shift_law (b : BitLine) (k : Nat) (hk : k < W)
    (hWF : ∀ c ∈ b.data, c < 2 ^ W)
    (hcap : b.bits + k ≤ b.data.length * W) :
    (b.shifted_right k).to_bits = List.replicate k 0 ++ b.to_bits
    ∧ (b.shifted_right k).bits = b.bits + k
    ∧ b.shifted_right 0 = b := by
  have hid : b.shifted_right 0 = b := by simp [BitLine.shifted_right]
  rcases Nat.eq_zero_or_pos k with hk0 | hkpos
  · subst hk0
    exact ⟨by simp [hid], by simp [hid], hid⟩
  · have hbits : (b.shifted_right k).bits = b.bits + k := by
      rw [BitLine.shifted_right, if_neg (by omega)]
    have hdata : (b.shifted_right k).data = BitLine.shiftChunks k b.data 0 := by
      rw [BitLine.shifted_right, if_neg (by omega)]
    refine ⟨?_, hbits, hid⟩
    have hklen : b.data.length ≤ (BitLine.shiftChunks k b.data 0).length := by
      rw [BitLine.shiftChunks_length]
      omega
    have hlen2 : b.bits + k ≤ (BitLine.shiftChunks k b.data 0).length * W :=
      le_trans hcap (Nat.mul_le_mul_right _ hklen)
    apply List.ext_getElem?
    intro i
    rw [BitLine.to_bits_getElem, hbits, hdata, Nat.min_eq_left hlen2]
    rcases Nat.lt_or_ge i (b.bits + k) with hibk | hibk
    · rw [if_pos hibk, and_one_shift, BitLine.shifted_pixel b k hk hWF i]
      rcases Nat.lt_or_ge i k with hik | hik
      · have hpix : (if i < k then false
            else (b.data.getD ((i - k) / W) 0).testBit ((i - k) % W)) = false :=
          if_pos hik
        rw [hpix, List.getElem?_append_left (by simpa using hik),
            List.getElem?_replicate_of_lt hik]
        simp
      · have hpix : (if i < k then false
            else (b.data.getD ((i - k) / W) 0).testBit ((i - k) % W))
            = (b.data.getD ((i - k) / W) 0).testBit ((i - k) % W) :=
          if_neg (by omega)
        rw [hpix, List.getElem?_append_right (by simpa using hik)]
        simp only [List.length_replicate]
        rw [BitLine.to_bits_getElem]
        have hin : i - k < min b.bits (b.data.length * W) := by
          have h1 : i - k < b.bits := by omega
          have h2 : i - k < b.data.length * W := by omega
          omega
        rw [if_pos hin, and_one_shift]
    · rw [if_neg (show ¬ i < b.bits + k by omega)]
      refine (List.getElem?_eq_none ?_).symm
      rw [List.length_append, List.length_replicate, BitLine.to_bits_length]
      have hmin : min b.bits (b.data.length * W) = b.bits := Nat.min_eq_left (by omega)
      omega

namespace BitLine

theorem orInto_length (xs ss : List Nat) : (orInto xs ss).length = xs.length := by
  induction xs generalizing ss with
  | nil => cases ss <;> simp [orInto]
  | cons x xs ih => cases ss <;> simp [orInto, ih]

theorem add_from_some (self source : BitLine) (off : Nat)
    (h : source.data.length + off ≤ self.data.length) :
    self.add_from source off
      = some ⟨self.data.take off ++ orInto (self.data.drop off) source.data, self.bits⟩ := by
  rw [add_from, if_pos h]

theorem add_from_length (self source : BitLine) (off : Nat) (b2 : BitLine)
    (h : self.add_from source off = some b2) :
    b2.data.length = self.data.length ∧ b2.bits = self.bits := by
  rw [add_from] at h
  split_ifs at h with hb
  cases Option.some.inj h
  constructor
  · simp only [List.length_append, List.length_take, orInto_length, List.length_drop]
    omega
  · rfl

end BitLine

/-- C6 amended: the chunk count invariant holds after new and from_bits and
is preserved by add_from and by a zero shift; for a positive sub word shift
it holds exactly when the grown bit length fitting the old capacity
coincides with the final spill being zero (nonzero spill appends a chunk,
zero spill does not, even when the bit growth crosses a chunk boundary). -/
theorem c6_invariant :
    (∀ n, BitLine.Inv (BitLine.new n))
    ∧ (∀ bs, BitLine.Inv (BitLine.from_bits bs))
    ∧ (∀ self source off b2, BitLine.add_from self source off = some b2 →
        (BitLine.Inv self ↔ BitLine.Inv b2))
    ∧ (∀ b : BitLine, BitLine.Inv b → BitLine.Inv (b.shifted_right 0))
    ∧ (∀ (b : BitLine) (k : Nat), 0 < k → k < W → BitLine.Inv b →
        (BitLine.Inv (b.shifted_right k)
          ↔ (b.bits + k ≤ W * b.data.length ↔ BitLine.finalSpill k b.data 0 = 0))) := by
  refine ⟨?_, ?_, ?_, ?_, ?_⟩
  · intro n
    show (List.replicate (BitLine.chunks_to_fit n) (0 : Nat)).length = _
    simp [BitLine.new]
  · intro bs
    show (BitLine.from_bits bs).data.length = _
    rw [BitLine.from_bits_data_length, BitLine.from_bits_bits]
  · intro self source off b2 h
    obtain ⟨h1, h2⟩ := BitLine.add_from_length self source off b2 h
    show _ = _ ↔ _ = _
    rw [h1, h2]
  · intro b hb
    simpa [BitLine.shifted_right] using hb
  · intro b k hk0 hk hInv
    have hbits : (b.shifted_right k).bits = b.bits + k := by
      rw [BitLine.shifted_right, if_neg (by omega)]
    have hdata : (b.shifted_right k).data = BitLine.shiftChunks k b.data 0 := by
      rw [BitLine.shifted_right, if_neg (by omega)]
    show (b.shifted_right k).data.length = BitLine.chunks_to_fit (b.shifted_right k).bits ↔ _
    rw [hbits, hdata, BitLine.shiftChunks_length]
    have hW64 : W = 64 := rfl
    have hInv64 : b.data.length = b.bits / 64 + if b.bits % 64 = 0 then 0 else 1 := by
      have : b.data.length = BitLine.chunks_to_fit b.bits := hInv
      simpa [BitLine.chunks_to_fit, hW64] using this
    have hk64 : k < 64 := by omega
    simp only [BitLine.chunks_to_fit, hW64]
    split_ifs at hInv64 ⊢ <;> omega

/-- C3 counterexample: a 60 bit line shifted right by 10 has its zero spill
chunk skipped, so unpacking loses the last 6 pixels and the shift law fails
as universally stated. -/
theorem c3_counterexample :
    ¬ (((BitLine.from_bits (1 :: List.replicate 59 0)).shifted_right 10).to_bits
       = List.replicate 10 0 ++ (BitLine.from_bits (1 :: List.replicate 59 0)).to_bits) := by
  decide

/-- Witness for C3 on a concrete line and shift amount. -/
theorem c3_shift_law_witness :
    ((BitLine.from_bits [1, 0, 1]).shifted_right 3).to_bits
        = List.replicate 3 0 ++ (BitLine.from_bits [1, 0, 1]).to_bits
    ∧ ((BitLine.from_bits [1, 0, 1]).shifted_right 3).bits
        = (BitLine.from_bits [1, 0, 1]).bits + 3
    ∧ (BitLine.from_bits [1, 0, 1]).shifted_right 0 = BitLine.from_bits [1, 0, 1] :=
  c3_shift_law (BitLine.from_bits [1, 0, 1]) 3 (by decide) (by decide) (by decide)

/-- C6 counterexample: a 60 bit all zero line satisfies the chunk count
invariant, but shifting it right by 10 keeps a single chunk while the bit
length grows to 70, so the invariant is not preserved by shifted_right. -/
theorem c6_counterexample :
    BitLine.Inv (BitLine.from_bits (List.replicate 60 0))
    ∧ ¬ BitLine.Inv ((BitLine.from_bits (List.replicate 60 0)).shifted_right 10) := by
  constructor
  · decide
  · decide

/-- Witness for C6 on concrete inputs: the invariant after from_bits, its
transfer through a completing add_from, and the shift characterization at a
one chunk line shifted by one. -/
theorem c6_invariant_witness :
    BitLine.Inv (BitLine.from_bits [1, 0, 1])
    ∧ (BitLine.Inv (BitLine.from_bits [1, 1]) ↔ BitLine.Inv (BitLine.mk [3] 2))
    ∧ (BitLine.Inv ((BitLine.from_bits [1]).shifted_right 1)
        ↔ ((BitLine.from_bits [1]).bits + 1 ≤ W * (BitLine.from_bits [1]).data.length
            ↔ BitLine.finalSpill 1 (BitLine.from_bits [1]).data 0 = 0)) :=
  ⟨c6_invariant.2.1 [1, 0, 1],
   c6_invariant.2.2.1 (BitLine.from_bits [1, 1]) (BitLine.from_bits [1]) 0
     (BitLine.mk [3] 2) (by decide),
   c6_invariant.2.2.2.2 (BitLine.from_bits [1]) 1 (by decide) (by decide) (by decide)⟩

namespace BitLine

theorem orInto_getD (xs ss : List Nat) (j : Nat) :
    (orInto xs ss).getD j 0
      = if j < xs.length ∧ j < ss.length then xs.getD j 0 ||| ss.getD j 0
        else xs.getD j 0 := by
  induction xs generalizing ss j with
  | nil => cases ss <;> simp [orInto]
  | cons x xs ih =>
    cases ss with
    | nil => simp [orInto]
    | cons s ss =>
      cases j with
      | zero => simp [orInto]
      | succ j =>
        simp only [orInto, List.getD_cons_succ, ih, List.length_cons]
        by_cases h : j < xs.length ∧ j < ss.length
        · rw [if_pos h, if_pos (by omega)]
        · rw [if_neg h, if_neg (by omega)]

theorem eq_of_parts {a b : BitLine} (h1 : a.data = b.data) (h2 : a.bits = b.bits) :
    a = b := by
  cases a
  cases b
  simp_all

theorem list_eq_of_getD (xs ys : List Nat) (hlen : xs.length = ys.length)
    (h : ∀ j, xs.getD j 0 = ys.getD j 0) : xs = ys := by
  apply List.ext_getElem?
  intro j
  rcases Nat.lt_or_ge j xs.length with hj | hj
  · have hj' : j < ys.length := hlen ▸ hj
    rw [List.getElem?_eq_getElem hj, List.getElem?_eq_getElem hj']
    have hgj := h j
    rw [List.getD_eq_getElem _ 0 hj, List.getD_eq_getElem _ 0 hj'] at hgj
    rw [hgj]
  · rw [List.getElem?_eq_none hj, List.getElem?_eq_none (by omega)]

theorem add_from_getD (self source : BitLine) (off : Nat)
    (h : source.data.length + off ≤ self.data.length) :
    ∃ b2, self.add_from source off = some b2
      ∧ b2.bits = self.bits
      ∧ b2.data.length = self.data.length
      ∧ (∀ j, b2.data.getD j 0 =
          if off ≤ j ∧ j < off + source.data.length
          then self.data.getD j 0 ||| source.data.getD (j - off) 0
          else self.data.getD j 0) := by
  refine ⟨_, add_from_some self source off h, rfl, ?_, ?_⟩
  · simp only [List.length_append, List.length_take, orInto_length, List.length_drop]
    omega
  · intro j
    have hofflen : off ≤ self.data.length := by omega
    have htl : (self.data.take off).length = off := by
      simp only [List.length_take]
      omega
    show (self.data.take off ++ orInto (self.data.drop off) source.data).getD j 0 = _
    rcases Nat.lt_or_ge j off with hj | hj
    · rw [List.getD_eq_getElem?_getD,
          List.getElem?_append_left (by rw [htl]; exact hj),
          List.getElem?_take_of_lt hj, ← List.getD_eq_getElem?_getD,
          if_neg (by omega)]
    · rw [List.getD_eq_getElem?_getD,
          List.getElem?_append_right (by rw [htl]; exact hj), htl,
          ← List.getD_eq_getElem?_getD, orInto_getD]
      have hdg : (self.data.drop off).getD (j - off) 0 = self.data.getD j 0 := by
        rw [List.getD_eq_getElem?_getD, List.getElem?_drop, ← List.getD_eq_getElem?_getD]
        congr 1
        omega
      by_cases hin : j - off < (self.data.drop off).length ∧ j - off < source.data.length
      · rw [if_pos hin, if_pos (by simp only [List.length_drop] at hin; omega), hdg]
      · rw [if_neg hin, if_neg (by simp only [List.length_drop] at hin; omega), hdg]

end BitLine

/-- C8 amended: BitLine::add_from or-merges every chunk of the source into
self at the chunk offset; it is not bounded by the span of set source
chunks and never consults end(), so the whole source chunk span must fit or
the call aborts (even for an all zero source); when the source has no set
bits, a completing call leaves self unchanged, the visited chunks being
or-ed with zero. -/
theorem c8_add_from (self source : BitLine) (off : Nat) :
    (source.data.length + off ≤ self.data.length →
      ∃ b2, self.add_from source off = some b2
        ∧ b2.bits = self.bits
        ∧ b2.data.length = self.data.length
        ∧ (∀ j, b2.data.getD j 0 =
            if off ≤ j ∧ j < off + source.data.length
            then self.data.getD j 0 ||| source.data.getD (j - off) 0
            else self.data.getD j 0))
    ∧ (self.data.length < source.data.length + off → self.add_from source off = none)
    ∧ ((∀ c ∈ source.data, c = 0) → source.data.length + off ≤ self.data.length →
        self.add_from source off = some self) := by
  refine ⟨BitLine.add_from_getD self source off, ?_, ?_⟩
  · intro hlt
    rw [BitLine.add_from, if_neg (by omega)]
  · intro hz h
    obtain ⟨b2, hsome, hbits, hlen, hget⟩ := BitLine.add_from_getD self source off h
    have hz0 : ∀ i, source.data.getD i 0 = 0 := by
      intro i
      rcases Nat.lt_or_ge i source.data.length with hi | hi
      · rw [List.getD_eq_getElem _ 0 hi]
        exact hz _ (List.getElem_mem hi)
      · rw [List.getD_eq_getElem?_getD, List.getElem?_eq_none hi]
        rfl
    have hdata : b2.data = self.data := by
      apply BitLine.list_eq_of_getD _ _ hlen
      intro j
      rw [hget j]
      split_ifs with hc
      · rw [hz0 (j - off), Nat.or_zero]
      · rfl
    rw [hsome, BitLine.eq_of_parts hdata hbits]

/-- C8 counterexample: an all zero two chunk source against a one chunk
receiver; the claim calls this a no-op, but the code merges every source
chunk, fails its span assertion and aborts. -/
theorem c8_counterexample :
    (BitLine.from_bits [1]).add_from (BitLine.from_bits (List.replicate 128 0)) 0
      = none := by
  decide

/-- Witness for C8: merging an all zero source into a longer receiver
completes and leaves the receiver unchanged. -/
theorem c8_add_from_witness :
    (BitLine.from_bits [0, 0]).add_from (BitLine.from_bits [0]) 0
      = some (BitLine.from_bits [0, 0]) :=
  (c8_add_from (BitLine.from_bits [0, 0]) (BitLine.from_bits [0]) 0).2.2
    (by decide) (by decide)

/-- C4: the positioned operations compute the chunk offset with a usize
subtraction chunks_to_fit(x) - 1 that underflows at x = 0 and aborts
(debug build; test_blur exercises add_from at x = 0), while the spec
formula max(chunks_to_fit(x), 1) - 1 is total; for every x of at least one
the code value agrees with the spec formula. -/
theorem c4_decomposition :
    segmentOffset 0 = none
    ∧ (∀ x, 1 ≤ x → segmentOffset x = some (Nat.max (BitLine.chunks_to_fit x) 1 - 1))
    ∧ BinaryRaster.add_from_checked rasterZero1 rasterOne1 (0, 0) = none
    ∧ BinaryRaster.add_from rasterZero1 rasterOne1 (0, 0) = none
    ∧ BinaryRaster.collision_check_at rasterZero1 rasterOne1 (0, 0) = none := by
  refine ⟨rfl, ?_, by decide, by decide, by decide⟩
  intro x hx
  have h1 : 1 ≤ BitLine.chunks_to_fit x := by
    simp only [BitLine.chunks_to_fit, W]
    split_ifs with h <;> omega
  rw [segmentOffset, checkedSub, if_pos h1]
  simp only [Option.map_some', Option.some.injEq]
  show max (BitLine.chunks_to_fit x - 1) 0 = max (BitLine.chunks_to_fit x) 1 - 1
  omega

/-- Witness for C4: a completing decomposition away from the failing point
matches the spec formula. -/
theorem c4_decomposition_witness :
    segmentOffset 5 = some (Nat.max (BitLine.chunks_to_fit 5) 1 - 1) :=
  c4_decomposition.2.1 5 (by decide)

/-- C5: from_raster has no zero width guard, so width 0 aborts (step_by(0))
instead of yielding an empty raster; an empty pixel buffer with a positive
width does give the empty raster, and a zero shift amount is an identity on
rasters and rows. -/
theorem c5_degenerate :
    BinaryRaster.from_raster [] 0 = none
    ∧ BinaryRaster.from_raster [1, 0, 1, 0] 0 = none
    ∧ (∀ w, 1 ≤ w → BinaryRaster.from_raster [] w = some ⟨[], 0⟩)
    ∧ (∀ r : BinaryRaster, r.shifted_right 0 = r)
    ∧ (∀ b : BitLine, b.shifted_right 0 = b) := by
  refine ⟨rfl, rfl, ?_, ?_, ?_⟩
  · intro w hw
    rw [BinaryRaster.from_raster, if_neg (by omega)]
    simp [BitLine.chunksOf_nil]
  · intro r
    simp [BinaryRaster.shifted_right]
  · intro b
    simp [BitLine.shifted_right]

/-- Witness for C5: the empty buffer with a positive width. -/
theorem c5_degenerate_witness :
    BinaryRaster.from_raster [] 3 = some ⟨[], 0⟩ :=
  c5_degenerate.2.2.1 3 (by decide)

/-- C9 (can_fit is modelled from the spec, it is absent from src): can_fit
returns true exactly when the chunk capacity bound and the strict vertical
bound both hold at the spec decomposition of pos.x, and in particular an
exactly fitting bottom edge placement is rejected by the strict vertical
comparison. -/
theorem c9_can_fit (self other : BinaryRaster) (pos : Nat × Nat) :
    (BinaryRaster.can_fit self other pos = true ↔
      (Nat.max (BitLine.chunks_to_fit pos.1) 1 - 1
          + other.max_chunkwidth_after_shift (pos.1 % W) ≤ self.max_chunkwidth
        ∧ pos.2 + other.data.length < self.data.length))
    ∧ (pos.2 + other.data.length = self.data.length →
        BinaryRaster.can_fit self other pos = false) := by
  constructor
  · simp [BinaryRaster.can_fit]
  · intro h
    have hv : ¬ (pos.2 + other.data.length < self.data.length) := by omega
    simp [BinaryRaster.can_fit, hv]

/-- Witness for C9: a one row shape on a one row raster at the top edge is
rejected because the fit is exact, not strict. -/
theorem c9_can_fit_witness :
    BinaryRaster.can_fit rasterOne1 rasterOne1 (0, 0) = false :=
  (c9_can_fit rasterOne1 rasterOne1 (0, 0)).2 (by decide)

theorem segmentOffset_eq (x so : Nat) (h : segmentOffset x = some so) :
    so = BitLine.chunks_to_fit x - 1 := by
  rw [segmentOffset, checkedSub] at h
  split_ifs at h with h1
  · simp only [Option.map_some', Option.some.injEq] at h
    have : max (BitLine.chunks_to_fit x - 1) 0 = so := h
    omega
  · simp at h

namespace BinaryRaster

theorem shifted_len (r : BinaryRaster) (a : Nat) :
    (r.shifted_right a).data.length = r.data.length := by
  rw [shifted_right]
  split <;> simp

end BinaryRaster

/-- C7: collision_check_at returns false whenever pos.y is at or below the
receiver height; when it completes at a lower pos.y it reports a collision
exactly when one of the min(height(other)+pos.y, height(self)) - pos.y
clipped row pairs (shifted other against self) shares a set bit; at
pos.x = 0 the chunk offset computation aborts instead of returning. -/
theorem c7_collision_check_at :
    BinaryRaster.collision_check_at rasterOne1 rasterOne1 (0, 0) = none
    ∧ (∀ (self other : BinaryRaster) (pos : Nat × Nat),
        self.data.length ≤ pos.2 →
          BinaryRaster.collision_check_at self other pos = some false)
    ∧ (∀ (self other : BinaryRaster) (pos : Nat × Nat) (bres : Bool),
        BinaryRaster.collision_check_at self other pos = some bres →
        pos.2 < self.data.length →
        (bres = true ↔
          ∃ i < min (other.data.length + pos.2) self.data.length - pos.2,
            (self.data.getD (i + pos.2) ⟨[], 0⟩).collision_check
              ((other.shifted_right (pos.1 % W)).data.getD i ⟨[], 0⟩)
              (BitLine.chunks_to_fit pos.1 - 1) = true)) := by
  refine ⟨by decide, ?_, ?_⟩
  · intro self other pos h
    rw [BinaryRaster.collision_check_at, if_pos h]
  · intro self other pos bres h hlt
    rw [BinaryRaster.collision_check_at, if_neg (by omega)] at h
    rcases hseg : segmentOffset pos.1 with _ | so
    · rw [hseg] at h
      simp at h
    · rw [hseg] at h
      have hso := segmentOffset_eq pos.1 so hseg
      subst hso
      simp only [Option.some.injEq] at h
      rw [← h, List.any_eq_true]
      rw [BinaryRaster.shifted_len]
      constructor
      · rintro ⟨i, hi, hp⟩
        exact ⟨i, List.mem_range.mp hi, hp⟩
      · rintro ⟨i, hi, hp⟩
        exact ⟨i, List.mem_range.mpr hi, hp⟩

/-- Witness for C7: a placement entirely below the raster reports no
collision. -/
theorem c7_collision_check_at_witness :
    BinaryRaster.collision_check_at rasterZero2 rasterOne1 (2, 7) = some false :=
  c7_collision_check_at.2.1 rasterZero2 rasterOne1 (2, 7) (by decide)

namespace BinaryRaster

theorem merge_rows_length :
    ∀ (src rows : List BitLine) (off y : Nat) (rows2 : List BitLine),
      merge_rows rows src off y = some rows2 → rows2.length = rows.length := by
  intro src
  induction src with
  | nil =>
    intro rows off y rows2 h
    cases Option.some.inj h
    rfl
  | cons s ss ih =>
    intro rows off y rows2 h
    rw [merge_rows] at h
    split at h
    · exact absurd h (by simp)
    next row hy =>
      split at h
      · exact absurd h (by simp)
      next row2 ha =>
        have := ih _ _ _ _ h
        rw [this, List.length_set]

end BinaryRaster

namespace BinaryRaster

theorem merge_rows_untouched :
    ∀ (src rows : List BitLine) (off y : Nat) (rows2 : List BitLine),
      merge_rows rows src off y = some rows2 →
      ∀ j, j < y ∨ y + src.length ≤ j → rows2[j]? = rows[j]? := by
  intro src
  induction src with
  | nil =>
    intro rows off y rows2 h j hj
    cases Option.some.inj h
    rfl
  | cons s ss ih =>
    intro rows off y rows2 h j hj
    rw [merge_rows] at h
    split at h
    · exact absurd h (by simp)
    next row hy =>
      split at h
      · exact absurd h (by simp)
      next row2 ha =>
        simp only [List.length_cons] at hj
        have h2 := ih _ _ _ _ h j (by omega)
        rw [h2, List.getElem?_set_ne (by omega)]

theorem merge_rows_rows :
    ∀ (src rows : List BitLine) (off y : Nat) (rows2 : List BitLine),
      merge_rows rows src off y = some rows2 →
      ∀ i, i < src.length →
        (rows.getD (y + i) ⟨[], 0⟩).add_from (src.getD i ⟨[], 0⟩) off
          = some (rows2.getD (y + i) ⟨[], 0⟩) := by
  intro src
  induction src with
  | nil =>
    intro rows off y rows2 h i hi
    simp at hi
  | cons s ss ih =>
    intro rows off y rows2 h i hi
    rw [merge_rows] at h
    split at h
    · exact absurd h (by simp)
    next row hy =>
      split at h
      · exact absurd h (by simp)
      next row2 ha =>
        have hylt : y < rows.length := by
          rcases List.getElem?_eq_some_iff.mp hy with ⟨hl, _⟩
          exact hl
        cases i with
        | zero =>
          have hrow : rows.getD (y + 0) ⟨[], 0⟩ = row := by
            rw [Nat.add_zero, List.getD_eq_getElem?_getD, hy]
            rfl
          have hrow2 : rows2.getD (y + 0) ⟨[], 0⟩ = row2 := by
            have hu := merge_rows_untouched ss (rows.set y row2) off (y + 1) rows2 h
              y (by omega)
            rw [Nat.add_zero, List.getD_eq_getElem?_getD, hu,
                List.getElem?_set_self (by simpa using hylt)]
            rfl
          rw [hrow, hrow2, List.getD_cons_zero, ha]
        | succ i =>
          have h2 := ih _ _ _ _ h i (by simpa using hi)
          have hset : (rows.set y row2).getD (y + 1 + i) ⟨[], 0⟩
              = rows.getD (y + 1 + i) ⟨[], 0⟩ := by
            rw [List.getD_eq_getElem?_getD, List.getD_eq_getElem?_getD,
                List.getElem?_set_ne (by omega)]
          rw [hset] at h2
          have hidx : y + (i + 1) = y + 1 + i := by omega
          rw [hidx]
          simpa using h2

end BinaryRaster

/-- C1: at x = 0 the call aborts (see C4) instead of returning an outcome;
every completing call is atomic: a blocked call returns Err with the
receiver bit for bit unchanged, and a successful call returns Ok with every
row of the shifted source or-merged into the receiver at the decomposed
address and every other row untouched, so the receiver changes exactly on
success. -/
theorem c1_atomic_add :
    BinaryRaster.add_from_checked rasterZero1 rasterOne1 (0, 0) = none
    ∧ (∀ (self source : BinaryRaster) (pos : Nat × Nat) (out : BinaryRaster × Bool),
        BinaryRaster.add_from_checked self source pos = some out →
        AddPost self source pos out) := by
  refine ⟨by decide, ?_⟩
  intro self source pos out h
  rw [BinaryRaster.add_from_checked] at h
  split at h
  · exact absurd h (by simp)
  next so hseg =>
    have hso := segmentOffset_eq pos.1 so hseg
    subst hso
    split_ifs at h with h1 h2
    simp only [] at h
    split at h
    · exact absurd h (by simp)
    · cases Option.some.inj h
      exact ⟨fun _ => rfl, fun hcontr => by simp at hcontr⟩
    · split at h
      · exact absurd h (by simp)
      next rows2 hm =>
        cases Option.some.inj h
        refine ⟨fun hcontr => by simp at hcontr, fun _ => ⟨rfl, ?_, ?_, ?_⟩⟩
        · exact BinaryRaster.merge_rows_length _ _ _ _ _ hm
        · intro j hj
          refine BinaryRaster.merge_rows_untouched _ _ _ _ _ hm j ?_
          rw [BinaryRaster.shifted_len]
          exact hj
        · intro i hi
          refine BinaryRaster.merge_rows_rows _ _ _ _ _ hm i ?_
          rw [BinaryRaster.shifted_len]
          exact hi

/-- Witness for C1: a completing successful call on concrete rasters
satisfies the postcondition. -/
theorem c1_atomic_add_witness :
    AddPost rasterZero2 rasterOne1 (1, 0) (⟨[BitLine.mk [2] 2], 0⟩, true) :=
  c1_atomic_add.2 rasterZero2 rasterOne1 (1, 0) (⟨[BitLine.mk [2] 2], 0⟩, true)
    (by decide)
